import Mathlib

/-!
Verification of the tree-support module `qiime/tree_compare.py`.

The module computes, for every internal node of a master phylogenetic tree,
the fraction of comparison trees containing a node with the same induced
set of tip names.  The embedding below mirrors the source functions
`setup_master_tree`, `compare` and `bootstrap_support`, with the cogent
`PhyloNode` tree represented as a rose tree carrying an optional `Name`
and a rational `bootstrap_support` accumulator, and Python exceptions
represented by an explicit error type.
-/

/-- A cogent `PhyloNode`: optional name, the `bootstrap_support` attribute
set by `setup_master_tree`, and an ordered list of children.  A node is a
tip iff its child list is empty. -/
inductive PhyloNode : Type where
  | mk (Name : Option String) (bootstrapSupport : ℚ) (Children : List PhyloNode)

def PhyloNode.Name : PhyloNode → Option String
  | .mk n _ _ => n

def PhyloNode.bootstrapSupport : PhyloNode → ℚ
  | .mk _ q _ => q

def PhyloNode.Children : PhyloNode → List PhyloNode
  | .mk _ _ cs => cs

mutual

/-- Tip names of the subtree rooted at a node, the node itself included
when it is a tip: the recursion underlying cogent `tips`, which collects
the childless nodes in traversal order. -/
def tipNamesFrom : PhyloNode → List (Option String)
  | .mk n _ [] => [n]
  | .mk _ _ (c :: cs) => tipNamesFromL (c :: cs)

def tipNamesFromL : List PhyloNode → List (Option String)
  | [] => []
  | c :: cs => tipNamesFrom c ++ tipNamesFromL cs

end

/-- Cogent `getTipNames` with its default `include_self = False`: the
names of the tips strictly descended from the node ("Returns tips
descended from self, [] if self is a tip"), so a single-node tree has no
tip names. -/
def getTipNames : PhyloNode → List (Option String)
  | .mk _ _ cs => tipNamesFromL cs

/-- The set of tip names of a node: the value of
`set(node.getTipNames())` in the source. -/
def tipSet (t : PhyloNode) : Finset (Option String) := (getTipNames t).toFinset

/-- The set of leaf labels of a tree in the sense of the specification:
the labels of all childless nodes, the root included when it is childless.
For a tree whose root has children this agrees with `tipSet`; for a
single-node tree it is that node's label while `tipSet` is empty. -/
def leafLabelSet (t : PhyloNode) : Finset (Option String) :=
  (tipNamesFrom t).toFinset

mutual

/-- Preorder list of the non-tip nodes of a tree, the root included when it
has children (cogent `iterNontips(include_self=True)`). -/
def iterNontips : PhyloNode → List PhyloNode
  | .mk _ _ [] => []
  | .mk n q (c :: cs) => .mk n q (c :: cs) :: iterNontipsL (c :: cs)

def iterNontipsL : List PhyloNode → List PhyloNode
  | [] => []
  | c :: cs => iterNontips c ++ iterNontipsL cs

end

mutual

/-- Names of every node of the tree, tips included
(cogent `getNodeNames`). -/
def getNodeNames : PhyloNode → List (Option String)
  | .mk n _ cs => n :: getNodeNamesL cs

def getNodeNamesL : List PhyloNode → List (Option String)
  | [] => []
  | c :: cs => getNodeNames c ++ getNodeNamesL cs

end

/-- The exceptions the module can raise: the `ValueError` of
`setup_master_tree`, the `ValueError` of `compare` (with its message), and
the `ZeroDivisionError` of the final division when no comparison tree was
supplied. -/
inductive TreeCompareError : Type where
  | nonUniqueNames : TreeCompareError
  | leafSetMismatch (msg : String) : TreeCompareError
  | zeroDivision : TreeCompareError
deriving DecidableEq

/-- The exact message of the `ValueError` raised by `compare` on a tip-set
mismatch. -/
def mismatchMsg : String :=
  "different number of tips in subsampled_tree and master.\n" ++
  "typically some sapmples with few sequences were skipped in" ++
  " the support trees.  remove offending samples from the master" ++
  " tree, and try again"

mutual

/-- The renaming/zeroing loop of `setup_master_tree`: walks the non-tip
nodes in preorder, sets `bootstrap_support = 0`, and gives every node whose
name is `None` or `""` the name `"node" + str(i)`, threading the counter
`i`. -/
def setupWalk : PhyloNode → Nat → PhyloNode × Nat
  | .mk n q [], i => (.mk n q [], i)
  | .mk n _ (c :: cs), i =>
    let p : Option String × Nat :=
      if n = none ∨ n = some "" then (some ("node" ++ Nat.repr i), i + 1) else (n, i)
    let r := setupWalkL (c :: cs) p.2
    (.mk p.1 0 r.1, r.2)

def setupWalkL : List PhyloNode → Nat → List PhyloNode × Nat
  | [], i => ([], i)
  | c :: cs, i =>
    let p := setupWalk c i
    let r := setupWalkL cs p.2
    (p.1 :: r.1, r.2)

end

/-- Source `setup_master_tree`: run the renaming/zeroing walk, then raise
`ValueError` when the node names of the resulting tree are not pairwise
distinct (`len(set(names)) != len(names)`). -/
def setup_master_tree (master : PhyloNode) : Except TreeCompareError PhyloNode :=
  let m := (setupWalk master 0).1
  if (getNodeNames m).Nodup then .ok m else .error .nonUniqueNames

mutual

/-- Applies `f` to each non-tip node (passing the node with its original
subtree) to produce its new `bootstrap_support`; tips are untouched.  This
is the shape shared by the increment loop of `compare` and the division
loop of `bootstrap_support`. -/
def updateNontips (f : PhyloNode → ℚ) : PhyloNode → PhyloNode
  | .mk n q [] => .mk n q []
  | .mk n q (c :: cs) => .mk n (f (.mk n q (c :: cs))) (updateNontipsL f (c :: cs))

def updateNontipsL (f : PhyloNode → ℚ) : List PhyloNode → List PhyloNode
  | [] => []
  | c :: cs => updateNontips f c :: updateNontipsL f cs

end

/-- The tip-name sets of the non-tip nodes of a comparison tree: the value
of `map(set, subsampled_tree_nodes_names)` in `compare`. -/
def subPartitions (sub : PhyloNode) : List (Finset (Option String)) :=
  (iterNontips sub).map tipSet

/-- Source `compare`: raise `ValueError` when the tip-name sets differ,
otherwise add 1 to `bootstrap_support` of every non-tip master node whose
tip-name set occurs among the comparison tree's non-tip tip-name sets. -/
def compare (master subsampled_tree : PhyloNode) : Except TreeCompareError PhyloNode :=
  if tipSet master = tipSet subsampled_tree then
    .ok (updateNontips
      (fun nd =>
        if tipSet nd ∈ subPartitions subsampled_tree then nd.bootstrapSupport + 1
        else nd.bootstrapSupport)
      master)
  else .error (.leafSetMismatch mismatchMsg)

/-- The comparison loop of `bootstrap_support` (`for sub_tree in trees:
compare(master_tree, sub_tree)`), threading the mutated master;
an exception aborts the loop. -/
def applyCompares : PhyloNode → List PhyloNode → Except TreeCompareError PhyloNode
  | m, [] => .ok m
  | m, t :: ts =>
    match compare m t with
    | .ok m2 => applyCompares m2 ts
    | .error e => .error e

/-- The same comparison loop viewed as in-place mutation: the result pairs
the state of the master tree when the loop stops with the exception, if
any, that stopped it.  `compare` raises before touching any accumulator,
so on an error the state is the one left by the earlier iterations. -/
def compareRun : PhyloNode → List PhyloNode → PhyloNode × Option TreeCompareError
  | m, [] => (m, none)
  | m, t :: ts =>
    match compare m t with
    | .ok m2 => compareRun m2 ts
    | .error e => (m, some e)

mutual

/-- The aggregation loop of `bootstrap_support`: for every non-tip node in
preorder, divide `bootstrap_support` by the tree count (raising
`ZeroDivisionError` when it is 0) and record `(node.Name, value)`. -/
def aggWalk (numTrees : Nat) :
    PhyloNode → Except TreeCompareError (PhyloNode × List (Option String × ℚ))
  | .mk n q [] => .ok (.mk n q [], [])
  | .mk n q (c :: cs) =>
    if numTrees = 0 then .error .zeroDivision
    else
      match aggWalkL numTrees (c :: cs) with
      | .error e => .error e
      | .ok r =>
        .ok (.mk n (q / (numTrees : ℚ)) r.1, (n, q / (numTrees : ℚ)) :: r.2)

def aggWalkL (numTrees : Nat) :
    List PhyloNode → Except TreeCompareError (List PhyloNode × List (Option String × ℚ))
  | [] => .ok ([], [])
  | c :: cs =>
    match aggWalk numTrees c with
    | .error e => .error e
    | .ok r =>
      match aggWalkL numTrees cs with
      | .error e => .error e
      | .ok r2 => .ok (r.1 :: r2.1, r.2 ++ r2.2)

end

/-- Source `bootstrap_support`: set up the master tree, compare it with
every tree of the list, then divide every accumulator by the number of
trees, returning the modified master together with the name-to-support
mapping (as the list of entries in iteration order). -/
def bootstrap_support (master_tree : PhyloNode) (trees : List PhyloNode) :
    Except TreeCompareError (PhyloNode × List (Option String × ℚ)) :=
  match setup_master_tree master_tree with
  | .error e => .error e
  | .ok m =>
    match applyCompares m trees with
    | .error e => .error e
    | .ok m2 => aggWalk trees.length m2

/-- Modelled from the spec: the label assignment the Master Initializer
section describes, on the list of internal-node labels in traversal
order — a label that is missing or empty becomes `"node" + <counter>`,
the counter starting at the given value and incremented once per
assignment; other labels are kept. -/
def specAssignLabels : List (Option String) → Nat → List (Option String) × Nat
  | [], i => ([], i)
  | n :: ns, i =>
    if n = none ∨ n = some "" then
      let p := specAssignLabels ns (i + 1)
      (some ("node" ++ Nat.repr i) :: p.1, p.2)
    else
      let p := specAssignLabels ns i
      (n :: p.1, p.2)

/-- A tip with the given name. -/
def leaf (s : String) : PhyloNode := .mk (some s) 0 []

/-- The master tree `((A,B)n1,(C,D)n2);` of the concrete scenario. -/
def masterABCD : PhyloNode :=
  .mk none 0
    [.mk (some "n1") 0 [leaf "A", leaf "B"], .mk (some "n2") 0 [leaf "C", leaf "D"]]

/-- The comparison tree `((A,B),(C,D));`. -/
def compT1 : PhyloNode :=
  .mk none 0 [.mk none 0 [leaf "A", leaf "B"], .mk none 0 [leaf "C", leaf "D"]]

/-- The comparison tree `((A,C),(B,D));`. -/
def compT2 : PhyloNode :=
  .mk none 0 [.mk none 0 [leaf "A", leaf "C"], .mk none 0 [leaf "B", leaf "D"]]

/-- A comparison tree with tips `{A, B, C, E}`. -/
def compT3 : PhyloNode :=
  .mk none 0 [.mk none 0 [leaf "A", leaf "B"], .mk none 0 [leaf "C", leaf "E"]]

/-- A comparison tree with tips `{X, Y}`. -/
def compT4 : PhyloNode := .mk none 0 [leaf "X", leaf "Y"]

/-- The master tree after `setup_master_tree`: root named `node0`,
accumulators zeroed. -/
def setupABCD : PhyloNode :=
  .mk (some "node0") 0
    [.mk (some "n1") 0 [leaf "A", leaf "B"], .mk (some "n2") 0 [leaf "C", leaf "D"]]

/-- `setupABCD` after comparison with `compT1`: every internal node
matched. -/
def incr1ABCD : PhyloNode :=
  .mk (some "node0") 1
    [.mk (some "n1") 1 [leaf "A", leaf "B"], .mk (some "n2") 1 [leaf "C", leaf "D"]]

/-- `incr1ABCD` after comparison with `compT2`: only the root matched. -/
def incr2ABCD : PhyloNode :=
  .mk (some "node0") 2
    [.mk (some "n1") 1 [leaf "A", leaf "B"], .mk (some "n2") 1 [leaf "C", leaf "D"]]

/-- A master tree with a duplicated name (the root shares its name with a
tip). -/
def masterDup : PhyloNode := .mk (some "A") 0 [leaf "A", leaf "B"]

/-! Structural lemmas about the tree model. -/

/-- Structural induction on `PhyloNode` with the hypothesis available for
every child. -/
theorem PhyloNode.inductionOn {P : PhyloNode → Prop}
    (h : ∀ n q cs, (∀ c ∈ cs, P c) → P (.mk n q cs)) : ∀ t, P t
  | .mk n q cs => h n q cs (fun c hc => PhyloNode.inductionOn h c)
termination_by t => sizeOf t
decreasing_by
  simp only [PhyloNode.mk.sizeOf_spec]
  have := List.sizeOf_lt_of_mem hc
  omega

theorem mem_iterNontipsL {l : List PhyloNode} {nd : PhyloNode}
    (h : nd ∈ iterNontipsL l) : ∃ c ∈ l, nd ∈ iterNontips c := by
  induction l with
  | nil => simp [iterNontipsL] at h
  | cons c cs IH =>
    simp only [iterNontipsL, List.mem_append] at h
    rcases h with h | h
    · exact ⟨c, by simp, h⟩
    · obtain ⟨d, hd, hnd⟩ := IH h
      exact ⟨d, by simp [hd], hnd⟩

theorem Children_ne_nil_of_mem_iterNontips :
    ∀ t : PhyloNode, ∀ nd ∈ iterNontips t, nd.Children ≠ [] := by
  intro t
  induction t using PhyloNode.inductionOn with
  | h n q cs ih =>
    cases cs with
    | nil => intro nd hnd; simp [iterNontips] at hnd
    | cons c cs =>
      intro nd hnd
      simp only [iterNontips, List.mem_cons] at hnd
      rcases hnd with rfl | hnd
      · simp [PhyloNode.Children]
      · obtain ⟨d, hd, hnd⟩ := mem_iterNontipsL hnd
        exact ih d hd nd hnd

theorem self_mem_iterNontips {t : PhyloNode} (h : t.Children ≠ []) :
    t ∈ iterNontips t := by
  cases t with
  | mk n q cs =>
    cases cs with
    | nil => simp [PhyloNode.Children] at h
    | cons c cs => simp [iterNontips]

theorem iterNontips_ne_nil {t : PhyloNode} (h : t.Children ≠ []) :
    iterNontips t ≠ [] := by
  cases t with
  | mk n q cs =>
    cases cs with
    | nil => simp [PhyloNode.Children] at h
    | cons c cs => simp [iterNontips]

/-! Lemmas about `updateNontips`: it keeps names, tips and shape, and
rewrites the accumulator of every non-tip node. -/

theorem tipNamesFromL_updateNontipsL (f : PhyloNode → ℚ) (l : List PhyloNode)
    (ih : ∀ c ∈ l, tipNamesFrom (updateNontips f c) = tipNamesFrom c) :
    tipNamesFromL (updateNontipsL f l) = tipNamesFromL l := by
  induction l with
  | nil => rfl
  | cons c cs IH =>
    simp only [updateNontipsL, tipNamesFromL]
    rw [ih c (by simp), IH (fun d hd => ih d (by simp [hd]))]

theorem tipNamesFrom_updateNontips (f : PhyloNode → ℚ) (t : PhyloNode) :
    tipNamesFrom (updateNontips f t) = tipNamesFrom t := by
  induction t using PhyloNode.inductionOn with
  | h n q cs ih =>
    cases cs with
    | nil => rfl
    | cons c cs =>
      have h2 := tipNamesFromL_updateNontipsL f (c :: cs) ih
      simp only [updateNontips, updateNontipsL] at h2 ⊢
      simp only [tipNamesFrom]
      exact h2

theorem getTipNames_updateNontips (f : PhyloNode → ℚ) (t : PhyloNode) :
    getTipNames (updateNontips f t) = getTipNames t := by
  cases t with
  | mk n q cs =>
    cases cs with
    | nil => rfl
    | cons c cs =>
      simp only [updateNontips, getTipNames]
      exact tipNamesFromL_updateNontipsL f (c :: cs)
        (fun d hd => tipNamesFrom_updateNontips f d)

theorem tipSet_updateNontips (f : PhyloNode → ℚ) (t : PhyloNode) :
    tipSet (updateNontips f t) = tipSet t := by
  simp [tipSet, getTipNames_updateNontips]

theorem Name_updateNontips (f : PhyloNode → ℚ) (t : PhyloNode) :
    (updateNontips f t).Name = t.Name := by
  cases t with
  | mk n q cs => cases cs <;> rfl

theorem bootstrapSupport_updateNontips (f : PhyloNode → ℚ) {t : PhyloNode}
    (h : t.Children ≠ []) : (updateNontips f t).bootstrapSupport = f t := by
  cases t with
  | mk n q cs =>
    cases cs with
    | nil => simp [PhyloNode.Children] at h
    | cons c cs => rfl

theorem iterNontipsL_updateNontipsL (f : PhyloNode → ℚ) (l : List PhyloNode)
    (ih : ∀ c ∈ l, iterNontips (updateNontips f c) = (iterNontips c).map (updateNontips f)) :
    iterNontipsL (updateNontipsL f l) = (iterNontipsL l).map (updateNontips f) := by
  induction l with
  | nil => rfl
  | cons c cs IH =>
    simp only [updateNontipsL, iterNontipsL, List.map_append]
    rw [ih c (by simp), IH (fun d hd => ih d (by simp [hd]))]

theorem iterNontips_updateNontips (f : PhyloNode → ℚ) (t : PhyloNode) :
    iterNontips (updateNontips f t) = (iterNontips t).map (updateNontips f) := by
  induction t using PhyloNode.inductionOn with
  | h n q cs ih =>
    cases cs with
    | nil => rfl
    | cons c cs =>
      have h2 := iterNontipsL_updateNontipsL f (c :: cs) ih
      simp only [updateNontipsL] at h2 ⊢
      simp only [updateNontips, iterNontips, updateNontipsL, List.map_cons]
      rw [h2]

/-! Lemmas about the setup walk: tip names are untouched, accumulators of
non-tip nodes are zeroed, the shape is preserved, and the assigned names
are the ones the specification's counter scheme produces. -/

theorem tipNamesFromL_setupWalkL (l : List PhyloNode)
    (ih : ∀ c ∈ l, ∀ j, tipNamesFrom (setupWalk c j).1 = tipNamesFrom c) :
    ∀ i, tipNamesFromL (setupWalkL l i).1 = tipNamesFromL l := by
  induction l with
  | nil => intro i; rfl
  | cons c cs IH =>
    intro i
    simp only [setupWalkL, tipNamesFromL]
    rw [ih c (by simp) i, IH (fun d hd => ih d (by simp [hd])) _]

theorem tipNamesFrom_setupWalk (t : PhyloNode) :
    ∀ i, tipNamesFrom (setupWalk t i).1 = tipNamesFrom t := by
  induction t using PhyloNode.inductionOn with
  | h n q cs ih =>
    cases cs with
    | nil => intro i; rfl
    | cons c cs =>
      intro i
      have h2 := tipNamesFromL_setupWalkL (c :: cs) ih
      simp only [setupWalk, setupWalkL] at h2 ⊢
      simp only [tipNamesFrom, tipNamesFromL] at h2 ⊢
      exact h2 _

theorem getTipNames_setupWalk (t : PhyloNode) (i : Nat) :
    getTipNames (setupWalk t i).1 = getTipNames t := by
  cases t with
  | mk n q cs =>
    cases cs with
    | nil => rfl
    | cons c cs =>
      simp only [setupWalk, getTipNames]
      exact tipNamesFromL_setupWalkL (c :: cs)
        (fun d hd j => tipNamesFrom_setupWalk d j) _

theorem tipSet_setupWalk (t : PhyloNode) (i : Nat) :
    tipSet (setupWalk t i).1 = tipSet t := by
  simp [tipSet, getTipNames_setupWalk]

theorem getTipNames_eq_from {t : PhyloNode} (h : t.Children ≠ []) :
    getTipNames t = tipNamesFrom t := by
  cases t with
  | mk n q cs =>
    cases cs with
    | nil => simp [PhyloNode.Children] at h
    | cons c cs => rfl

theorem tipSet_eq_leafLabelSet {t : PhyloNode} (h : t.Children ≠ []) :
    tipSet t = leafLabelSet t := by
  simp [tipSet, leafLabelSet, getTipNames_eq_from h]

theorem tipNamesFrom_ne_nil : ∀ t : PhyloNode, tipNamesFrom t ≠ [] := by
  intro t
  induction t using PhyloNode.inductionOn with
  | h n q cs ih =>
    cases cs with
    | nil => simp [tipNamesFrom]
    | cons c cs =>
      simp only [tipNamesFrom, tipNamesFromL]
      intro hnil
      exact ih c (by simp) (List.append_eq_nil.mp hnil).1

theorem tipSet_empty_of_tip {t : PhyloNode} (h : t.Children = []) :
    tipSet t = ∅ := by
  cases t with
  | mk n q cs =>
    simp only [PhyloNode.Children] at h
    subst h
    rfl

theorem tipSet_ne_empty_of_children {t : PhyloNode} (h : t.Children ≠ []) :
    tipSet t ≠ ∅ := by
  cases t with
  | mk n q cs =>
    cases cs with
    | nil => simp [PhyloNode.Children] at h
    | cons c cs =>
      intro hset
      simp only [tipSet, getTipNames] at hset
      have hl := (List.toFinset_eq_empty_iff _).mp hset
      simp only [tipNamesFromL] at hl
      exact tipNamesFrom_ne_nil c (List.append_eq_nil.mp hl).1

theorem children_root_of_mem_iterNontips {t nd : PhyloNode}
    (h : nd ∈ iterNontips t) : t.Children ≠ [] := by
  cases t with
  | mk n q cs =>
    cases cs with
    | nil => simp [iterNontips] at h
    | cons c cs => simp [PhyloNode.Children]

theorem Children_updateNontips_nil (f : PhyloNode → ℚ) (t : PhyloNode) :
    (updateNontips f t).Children = [] ↔ t.Children = [] := by
  cases t with
  | mk n q cs =>
    cases cs <;> simp [updateNontips, updateNontipsL, PhyloNode.Children]

theorem Children_setupWalk_eq_nil (t : PhyloNode) (i : Nat) :
    (setupWalk t i).1.Children = [] ↔ t.Children = [] := by
  cases t with
  | mk n q cs =>
    cases cs with
    | nil => simp [setupWalk]
    | cons c cs => simp [setupWalk, setupWalkL, PhyloNode.Children]

theorem bootstrapSupport_setupWalkL (l : List PhyloNode)
    (ih : ∀ c ∈ l, ∀ j, ∀ nd ∈ iterNontips (setupWalk c j).1, nd.bootstrapSupport = 0) :
    ∀ i, ∀ nd ∈ iterNontipsL (setupWalkL l i).1, nd.bootstrapSupport = 0 := by
  induction l with
  | nil => intro i nd hnd; simp [setupWalkL, iterNontipsL] at hnd
  | cons c cs IH =>
    intro i nd hnd
    simp only [setupWalkL, iterNontipsL, List.mem_append] at hnd
    rcases hnd with h | h
    · exact ih c (by simp) i nd h
    · exact IH (fun d hd => ih d (by simp [hd])) _ nd h

theorem bootstrapSupport_setupWalk (t : PhyloNode) :
    ∀ i, ∀ nd ∈ iterNontips (setupWalk t i).1, nd.bootstrapSupport = 0 := by
  induction t using PhyloNode.inductionOn with
  | h n q cs ih =>
    cases cs with
    | nil => intro i nd hnd; simp [setupWalk, iterNontips] at hnd
    | cons c cs =>
      intro i nd hnd
      simp only [setupWalk, setupWalkL, iterNontips, List.mem_cons] at hnd
      rcases hnd with rfl | hnd
      · rfl
      · have h2 := bootstrapSupport_setupWalkL (c :: cs) ih
        simp only [setupWalkL] at h2
        exact h2 _ nd (by simpa [iterNontipsL] using hnd)

theorem specAssignLabels_append (l1 l2 : List (Option String)) :
    ∀ i, specAssignLabels (l1 ++ l2) i =
      ((specAssignLabels l1 i).1 ++ (specAssignLabels l2 (specAssignLabels l1 i).2).1,
       (specAssignLabels l2 (specAssignLabels l1 i).2).2) := by
  induction l1 with
  | nil => intro i; simp [specAssignLabels]
  | cons n ns IH =>
    intro i
    by_cases h : n = none ∨ n = some ""
    · simp only [List.cons_append, specAssignLabels, if_pos h, List.append_eq]
      rw [IH]
    · simp only [List.cons_append, specAssignLabels, if_neg h, List.append_eq]
      rw [IH]

theorem setupWalkL_names (l : List PhyloNode)
    (ih : ∀ c ∈ l, ∀ j,
      ((iterNontips (setupWalk c j).1).map PhyloNode.Name, (setupWalk c j).2)
        = specAssignLabels ((iterNontips c).map PhyloNode.Name) j) :
    ∀ i, ((iterNontipsL (setupWalkL l i).1).map PhyloNode.Name, (setupWalkL l i).2)
        = specAssignLabels ((iterNontipsL l).map PhyloNode.Name) i := by
  induction l with
  | nil => intro i; rfl
  | cons c cs IH =>
    intro i
    have hc := ih c (by simp) i
    have hcs := IH (fun d hd j => ih d (by simp [hd]) j) (setupWalk c i).2
    simp only [setupWalkL, iterNontipsL, List.map_append, specAssignLabels_append]
    rw [← hc, ← hcs]

theorem setupWalk_names (t : PhyloNode) :
    ∀ i, ((iterNontips (setupWalk t i).1).map PhyloNode.Name, (setupWalk t i).2)
      = specAssignLabels ((iterNontips t).map PhyloNode.Name) i := by
  induction t using PhyloNode.inductionOn with
  | h n q cs ih =>
    cases cs with
    | nil => intro i; rfl
    | cons c cs =>
      intro i
      have hL := setupWalkL_names (c :: cs) ih
      by_cases h : n = none ∨ n = some ""
      · have hl := hL (i + 1)
        simp only [setupWalk, if_pos h, setupWalkL, iterNontips, List.map_cons,
          PhyloNode.Name, specAssignLabels] at hl ⊢
        rw [← hl]
      · have hl := hL i
        simp only [setupWalk, if_neg h, setupWalkL, iterNontips, List.map_cons,
          PhyloNode.Name, specAssignLabels] at hl ⊢
        rw [← hl]

/-! Lemmas about `compare` and the comparison loop. -/

theorem compare_def (m s : PhyloNode) :
    compare m s =
      (if tipSet m = tipSet s then
        .ok (updateNontips
          (fun nd =>
            if tipSet nd ∈ subPartitions s then nd.bootstrapSupport + 1
            else nd.bootstrapSupport) m)
      else .error (.leafSetMismatch mismatchMsg)) := rfl

theorem compare_eq_ok {m s m2 : PhyloNode} (h : compare m s = .ok m2) :
    tipSet m = tipSet s ∧
      m2 = updateNontips
        (fun nd =>
          if tipSet nd ∈ subPartitions s then nd.bootstrapSupport + 1
          else nd.bootstrapSupport) m := by
  rw [compare_def] at h
  split at h
  · exact ⟨by assumption, by injection h with h2; exact h2.symm⟩
  · cases h

theorem compare_error_of_ne {m s : PhyloNode} (h : tipSet m ≠ tipSet s) :
    compare m s = .error (.leafSetMismatch mismatchMsg) := by
  rw [compare_def, if_neg h]

theorem tipSet_compare_ok {m s m2 : PhyloNode} (h : compare m s = .ok m2) :
    tipSet m2 = tipSet m := by
  obtain ⟨-, rfl⟩ := compare_eq_ok h
  exact tipSet_updateNontips _ m

theorem applyCompares_tipSet :
    ∀ (ts : List PhyloNode) (m m2 : PhyloNode),
      applyCompares m ts = .ok m2 → tipSet m2 = tipSet m := by
  intro ts
  induction ts with
  | nil =>
    intro m m2 h
    simp only [applyCompares] at h
    injection h with h
    rw [h]
  | cons t ts IH =>
    intro m m2 h
    simp only [applyCompares] at h
    cases hc : compare m t with
    | error e => rw [hc] at h; cases h
    | ok m1 => rw [hc] at h; rw [IH _ _ h, tipSet_compare_ok hc]

theorem applyCompares_children :
    ∀ (ts : List PhyloNode) (m m2 : PhyloNode),
      applyCompares m ts = .ok m2 → (m2.Children = [] ↔ m.Children = []) := by
  intro ts
  induction ts with
  | nil =>
    intro m m2 h
    simp only [applyCompares] at h
    injection h with h
    rw [h]
  | cons t ts IH =>
    intro m m2 h
    simp only [applyCompares] at h
    cases hc : compare m t with
    | error e => rw [hc] at h; cases h
    | ok m1 =>
      rw [hc] at h
      obtain ⟨-, rfl⟩ := compare_eq_ok hc
      rw [IH _ _ h]
      exact Children_updateNontips_nil _ m

theorem applyCompares_ok_mem :
    ∀ (ts : List PhyloNode) (m m2 : PhyloNode),
      applyCompares m ts = .ok m2 → ∀ t ∈ ts, tipSet t = tipSet m := by
  intro ts
  induction ts with
  | nil => intro m m2 h t ht; simp at ht
  | cons u ts IH =>
    intro m m2 h t ht
    simp only [applyCompares] at h
    cases hc : compare m u with
    | error e => rw [hc] at h; cases h
    | ok m1 =>
      rw [hc] at h
      rcases List.mem_cons.mp ht with rfl | ht2
      · exact ((compare_eq_ok hc).1).symm
      · rw [IH _ _ h t ht2, tipSet_compare_ok hc]

theorem applyCompares_bound :
    ∀ (ts : List PhyloNode) (m m2 : PhyloNode) (k : ℕ),
      applyCompares m ts = .ok m2 →
      (∀ nd ∈ iterNontips m, ∃ j : ℕ, nd.bootstrapSupport = (j : ℚ) ∧ j ≤ k) →
      ∀ nd ∈ iterNontips m2, ∃ j : ℕ, nd.bootstrapSupport = (j : ℚ) ∧ j ≤ k + ts.length := by
  intro ts
  induction ts with
  | nil =>
    intro m m2 k h hinv
    simp only [applyCompares] at h
    injection h with h
    subst h
    simpa using hinv
  | cons t ts IH =>
    intro m m2 k h hinv
    simp only [applyCompares] at h
    cases hc : compare m t with
    | error e => rw [hc] at h; cases h
    | ok m1 =>
      rw [hc] at h
      obtain ⟨-, rfl⟩ := compare_eq_ok hc
      have hinv1 : ∀ nd ∈ iterNontips (updateNontips
          (fun nd => if tipSet nd ∈ subPartitions t then nd.bootstrapSupport + 1
            else nd.bootstrapSupport) m),
          ∃ j : ℕ, nd.bootstrapSupport = (j : ℚ) ∧ j ≤ k + 1 := by
        intro nd hnd
        rw [iterNontips_updateNontips] at hnd
        obtain ⟨nd0, hnd0, rfl⟩ := List.mem_map.mp hnd
        obtain ⟨j, hj, hjk⟩ := hinv nd0 hnd0
        have hch : nd0.Children ≠ [] := Children_ne_nil_of_mem_iterNontips m nd0 hnd0
        rw [bootstrapSupport_updateNontips _ hch]
        by_cases hmem : tipSet nd0 ∈ subPartitions t
        · exact ⟨j + 1, by rw [if_pos hmem, hj]; push_cast; ring, by omega⟩
        · exact ⟨j, by rw [if_neg hmem, hj], by omega⟩
      intro nd hnd
      obtain ⟨j, hj, hjk⟩ := IH _ m2 (k + 1) h hinv1 nd hnd
      exact ⟨j, hj, by simp only [List.length_cons]; omega⟩

theorem applyCompares_full :
    ∀ (ts : List PhyloNode) (m m2 : PhyloNode) (k : ℕ) (full : Finset (Option String)),
      applyCompares m ts = .ok m2 →
      tipSet m = full →
      (∀ t ∈ ts, t.Children ≠ []) →
      (∀ nd ∈ iterNontips m, tipSet nd = full → nd.bootstrapSupport = (k : ℚ)) →
      ∀ nd ∈ iterNontips m2, tipSet nd = full →
        nd.bootstrapSupport = ((k + ts.length : ℕ) : ℚ) := by
  intro ts
  induction ts with
  | nil =>
    intro m m2 k full h hfull hts hinv
    simp only [applyCompares] at h
    injection h with h
    subst h
    simpa using hinv
  | cons t ts IH =>
    intro m m2 k full h hfull hts hinv
    simp only [applyCompares] at h
    cases hc : compare m t with
    | error e => rw [hc] at h; cases h
    | ok m1 =>
      rw [hc] at h
      have hmt : tipSet m = tipSet t := (compare_eq_ok hc).1
      have hm1 : tipSet m1 = full := by rw [tipSet_compare_ok hc, hfull]
      obtain ⟨-, rfl⟩ := compare_eq_ok hc
      have hinv1 : ∀ nd ∈ iterNontips (updateNontips
          (fun nd => if tipSet nd ∈ subPartitions t then nd.bootstrapSupport + 1
            else nd.bootstrapSupport) m),
          tipSet nd = full → nd.bootstrapSupport = ((k + 1 : ℕ) : ℚ) := by
        intro nd hnd hndfull
        rw [iterNontips_updateNontips] at hnd
        obtain ⟨nd0, hnd0, rfl⟩ := List.mem_map.mp hnd
        have hch : nd0.Children ≠ [] := Children_ne_nil_of_mem_iterNontips m nd0 hnd0
        rw [tipSet_updateNontips] at hndfull
        have hmem : tipSet nd0 ∈ subPartitions t := by
          have htc : t.Children ≠ [] := hts t (by simp)
          have : tipSet nd0 = tipSet t := by rw [hndfull, ← hfull, hmt]
          rw [this]
          exact List.mem_map_of_mem tipSet (self_mem_iterNontips htc)
        rw [bootstrapSupport_updateNontips _ hch, if_pos hmem,
          hinv nd0 hnd0 hndfull]
        push_cast
        ring
      have := IH _ m2 (k + 1) full h hm1 (fun d hd => hts d (by simp [hd])) hinv1
      intro nd hnd hndfull
      rw [this nd hnd hndfull]
      norm_num
      ring

/-! Lemmas about the aggregation walk. -/

theorem aggWalkL_ok (N : ℕ) (l : List PhyloNode)
    (ih : ∀ c ∈ l, aggWalk N c = .ok
      (updateNontips (fun nd => nd.bootstrapSupport / (N : ℚ)) c,
       (iterNontips c).map (fun nd => (nd.Name, nd.bootstrapSupport / (N : ℚ))))) :
    aggWalkL N l = .ok
      (updateNontipsL (fun nd => nd.bootstrapSupport / (N : ℚ)) l,
       (iterNontipsL l).map (fun nd => (nd.Name, nd.bootstrapSupport / (N : ℚ)))) := by
  induction l with
  | nil => rfl
  | cons c cs IH =>
    simp only [aggWalkL, ih c (by simp), IH (fun d hd => ih d (by simp [hd]))]
    simp [updateNontipsL, iterNontipsL]

theorem aggWalk_ok (N : ℕ) (hN : N ≠ 0) (t : PhyloNode) :
    aggWalk N t = .ok
      (updateNontips (fun nd => nd.bootstrapSupport / (N : ℚ)) t,
       (iterNontips t).map (fun nd => (nd.Name, nd.bootstrapSupport / (N : ℚ)))) := by
  induction t using PhyloNode.inductionOn with
  | h n q cs ih =>
    cases cs with
    | nil => rfl
    | cons c cs =>
      have hL := aggWalkL_ok N (c :: cs) ih
      simp only [aggWalk, if_neg hN, hL, updateNontips, iterNontips, List.map_cons]
      simp [PhyloNode.Name, PhyloNode.bootstrapSupport, updateNontipsL, iterNontipsL]

theorem aggWalk_zero_error {t : PhyloNode} (h : t.Children ≠ []) :
    aggWalk 0 t = .error .zeroDivision := by
  cases t with
  | mk n q cs =>
    cases cs with
    | nil => simp [PhyloNode.Children] at h
    | cons c cs => simp [aggWalk]

theorem setup_master_tree_eq_ok {master m0 : PhyloNode}
    (h : setup_master_tree master = .ok m0) :
    m0 = (setupWalk master 0).1 ∧ (getNodeNames (setupWalk master 0).1).Nodup := by
  simp only [setup_master_tree] at h
  split at h
  · exact ⟨by injection h with h; exact h.symm, by assumption⟩
  · cases h

theorem compareRun_append_ok :
    ∀ (ts : List PhyloNode) (m m2 : PhyloNode) (l : List PhyloNode),
      applyCompares m ts = .ok m2 → compareRun m (ts ++ l) = compareRun m2 l := by
  intro ts
  induction ts with
  | nil =>
    intro m m2 l h
    simp only [applyCompares] at h
    injection h with h
    subst h
    simp [List.nil_append]
  | cons t ts IH =>
    intro m m2 l h
    simp only [applyCompares] at h
    cases hc : compare m t with
    | error e => rw [hc] at h; cases h
    | ok m1 =>
      rw [hc] at h
      simp only [List.cons_append, compareRun, hc]
      exact IH _ _ _ h

theorem applyCompares_error_append :
    ∀ (ts : List PhyloNode) (m m2 t : PhyloNode) (rest : List PhyloNode)
      (e : TreeCompareError),
      applyCompares m ts = .ok m2 → compare m2 t = .error e →
      applyCompares m (ts ++ t :: rest) = .error e := by
  intro ts
  induction ts with
  | nil =>
    intro m m2 t rest e h h2
    simp only [applyCompares] at h
    injection h with h
    subst h
    simp only [List.nil_append, applyCompares, h2]
  | cons u ts IH =>
    intro m m2 t rest e h h2
    simp only [applyCompares] at h
    cases hc : compare m u with
    | error e2 => rw [hc] at h; cases h
    | ok m1 =>
      rw [hc] at h
      simp only [List.cons_append, applyCompares, hc]
      exact IH _ _ _ _ _ h h2

/-! The claims. -/

/-- C1: for the master tree `((A,B)n1,(C,D)n2);` and the two comparison
trees `((A,B),(C,D));` and `((A,C),(B,D));`, `bootstrap_support` returns a
support mapping in which node `n1` (clade `{A,B}`) has support 0.5, node
`n2` (clade `{C,D}`) has support 0.5, and the root (clade `{A,B,C,D}`,
named `node0`) has support 1.0. -/
theorem C1_concrete_scenario :
    bootstrap_support masterABCD [compT1, compT2] =
      .ok (.mk (some "node0") 1
        [.mk (some "n1") (1 / 2) [leaf "A", leaf "B"],
         .mk (some "n2") (1 / 2) [leaf "C", leaf "D"]],
        [(some "node0", 1), (some "n1", 1 / 2), (some "n2", 1 / 2)]) := by
  with_unfolding_all rfl

/-- C5: during `setup_master_tree`, the non-tip labels become exactly the
labels the specified scheme produces: each missing or empty label gets
`"node" + counter`, the counter starting at 0 and incremented once per
assignment in traversal order, while non-empty labels are kept. -/
theorem C5_assigns_counter_labels (t : PhyloNode) :
    (iterNontips (setupWalk t 0).1).map PhyloNode.Name
      = (specAssignLabels ((iterNontips t).map PhyloNode.Name) 0).1 := by
  rw [← setupWalk_names t 0]

/-- C6: after name assignment, `setup_master_tree` fails with the
non-unique-names error precisely when the node names of the renamed tree
contain a duplicate, and in that case `bootstrap_support` returns that
error for every list of comparison trees — the failure happens before any
comparison tree is processed. -/
theorem C6_nonunique_names (master : PhyloNode) :
    (setup_master_tree master = .error .nonUniqueNames ↔
      ¬ (getNodeNames (setupWalk master 0).1).Nodup) ∧
    (∀ trees : List PhyloNode, ¬ (getNodeNames (setupWalk master 0).1).Nodup →
      bootstrap_support master trees = .error .nonUniqueNames) := by
  have hdef : setup_master_tree master =
      (if (getNodeNames (setupWalk master 0).1).Nodup
       then .ok (setupWalk master 0).1 else .error .nonUniqueNames) := rfl
  by_cases h : (getNodeNames (setupWalk master 0).1).Nodup
  · constructor
    · rw [hdef, if_pos h]
      simp [h]
    · intro trees hnd
      exact absurd h hnd
  · constructor
    · rw [hdef, if_neg h]
      simp [h]
    · intro trees hnd
      simp only [bootstrap_support, hdef, if_neg h]

/-- Witness for C6: a master whose root shares the name `A` with a tip. -/
theorem C6_witness :
    ¬ (getNodeNames (setupWalk masterDup 0).1).Nodup ∧
    bootstrap_support masterDup [compT1] = .error .nonUniqueNames := by
  have h := C6_nonunique_names masterDup
  have hnd : ¬ (getNodeNames (setupWalk masterDup 0).1).Nodup := by decide
  exact ⟨hnd, h.2 [compT1] hnd⟩

/-- C8 counterexample: the error `compare` raises on a tip-set mismatch
carries one fixed message whatever the two leaf sets are — the master with
tips `{A,B,C,D}` gets the same error against tips `{A,B,C,E}` as against
tips `{X,Y}`, and the message mentions neither `D` nor `E` — so it does
not identify `{D}` and `{E}` as the asymmetric differences. -/
theorem C8_cex :
    compare masterABCD compT3 = .error (.leafSetMismatch mismatchMsg) ∧
    compare masterABCD compT4 = .error (.leafSetMismatch mismatchMsg) ∧
    mismatchMsg.data.contains 'D' = false ∧
    mismatchMsg.data.contains 'E' = false := by
  refine ⟨?_, ?_, ?_, ?_⟩
  · with_unfolding_all rfl
  · with_unfolding_all rfl
  · decide
  · decide

/-- C8 amended: on a tip-set mismatch `compare` raises the `ValueError`
with one fixed diagnostic message, independent of the two trees; the
symmetric difference of the leaf sets is not part of the error. -/
theorem C8_amended_fixed_message (m s : PhyloNode) (h : tipSet m ≠ tipSet s) :
    compare m s = .error (.leafSetMismatch mismatchMsg) :=
  compare_error_of_ne h

/-- Witness for the amended C8. -/
theorem C8_amended_witness :
    tipSet masterABCD ≠ tipSet compT3 ∧
    compare masterABCD compT3 = .error (.leafSetMismatch mismatchMsg) :=
  ⟨by decide, C8_amended_fixed_message masterABCD compT3 (by decide)⟩

/-- C3: whenever `bootstrap_support` produces a support mapping for a
master tree and comparison trees sharing its leaf set, every support
fraction it reports lies in the closed interval [0, 1]. -/
theorem C3_support_in_unit_interval (master : PhyloNode) (trees : List PhyloNode)
    (m2 : PhyloNode) (sup : List (Option String × ℚ))
    (hshare : ∀ t ∈ trees, tipSet t = tipSet master)
    (h : bootstrap_support master trees = .ok (m2, sup)) :
    ∀ p ∈ sup, 0 ≤ p.2 ∧ p.2 ≤ 1 := by
  unfold bootstrap_support at h
  cases hset : setup_master_tree master with
  | error e => simp only [hset] at h; cases h
  | ok m0 =>
    simp only [hset] at h
    cases happ : applyCompares m0 trees with
    | error e => simp only [happ] at h; cases h
    | ok m1 =>
      simp only [happ] at h
      by_cases hN : trees.length = 0
      · rw [hN] at h
        cases m1 with
        | mk n q cs =>
          cases cs with
          | nil =>
            simp only [aggWalk] at h
            injection h with h
            injection h with hm2 hsup
            intro p hp
            rw [← hsup] at hp
            simp at hp
          | cons c cs =>
            rw [aggWalk_zero_error (by simp [PhyloNode.Children])] at h
            cases h
      · rw [aggWalk_ok _ hN] at h
        injection h with h
        injection h with hm2 hsup
        have hm0 := (setup_master_tree_eq_ok hset).1
        have hzero : ∀ nd ∈ iterNontips m0,
            ∃ j : ℕ, nd.bootstrapSupport = (j : ℚ) ∧ j ≤ 0 := by
          intro nd hnd
          subst hm0
          exact ⟨0, by rw [bootstrapSupport_setupWalk master 0 nd hnd]; norm_num,
            le_refl 0⟩
        have hbound := applyCompares_bound trees m0 m1 0 happ hzero
        intro p hp
        rw [← hsup] at hp
        obtain ⟨nd, hnd, rfl⟩ := List.mem_map.mp hp
        obtain ⟨j, hj, hjk⟩ := hbound nd hnd
        have hNpos : (0 : ℚ) < (trees.length : ℚ) := by
          exact_mod_cast Nat.pos_of_ne_zero hN
        constructor
        · exact div_nonneg (by rw [hj]; positivity) (le_of_lt hNpos)
        · rw [div_le_one hNpos, hj]
          exact_mod_cast (by omega : j ≤ trees.length)

/-- Witness for C3 at the concrete scenario. -/
theorem C3_witness :
    (∀ t ∈ [compT1, compT2], tipSet t = tipSet masterABCD) ∧
    ∀ p ∈ [((some "node0" : Option String), (1 : ℚ)), (some "n1", 1 / 2),
        (some "n2", 1 / 2)], 0 ≤ p.2 ∧ p.2 ≤ 1 := by
  have hshare : ∀ t ∈ [compT1, compT2], tipSet t = tipSet masterABCD := by decide
  refine ⟨hshare, ?_⟩
  exact C3_support_in_unit_interval masterABCD [compT1, compT2]
    (.mk (some "node0") 1
      [.mk (some "n1") (1 / 2) [leaf "A", leaf "B"],
       .mk (some "n2") (1 / 2) [leaf "C", leaf "D"]]) _
    hshare (by with_unfolding_all rfl)

/-- C4: for every master tree and every non-empty collection of
comparison trees sharing its leaf-label set, any master internal node
whose clade equals the full leaf-label set (in particular the root)
receives final support exactly 1.0 — it appears with value 1 in the
support mapping and carries 1 in the returned tree.  A comparison tree
that is a single tip has an empty `getTipNames` set and makes `compare`
raise against any master with an internal node, so it never reaches the
support computation. -/
theorem C4_full_clade_support_one (master : PhyloNode)
    (trees : List PhyloNode) (m2 : PhyloNode) (sup : List (Option String × ℚ))
    (hne : trees ≠ [])
    (hshare : ∀ t ∈ trees, leafLabelSet t = leafLabelSet master)
    (h : bootstrap_support master trees = .ok (m2, sup)) :
    ∀ nd ∈ iterNontips m2, leafLabelSet nd = leafLabelSet master →
      nd.bootstrapSupport = 1 ∧ (nd.Name, (1 : ℚ)) ∈ sup := by
  unfold bootstrap_support at h
  cases hset : setup_master_tree master with
  | error e => simp only [hset] at h; cases h
  | ok m0 =>
    simp only [hset] at h
    cases happ : applyCompares m0 trees with
    | error e => simp only [happ] at h; cases h
    | ok m1 =>
      simp only [happ] at h
      have hN : trees.length ≠ 0 := by
        intro h0
        exact hne (List.length_eq_zero.mp h0)
      rw [aggWalk_ok _ hN] at h
      injection h with h
      injection h with hm2 hsup
      have hm0 := (setup_master_tree_eq_ok hset).1
      intro nd hnd hndfull
      rw [← hm2, iterNontips_updateNontips] at hnd
      obtain ⟨nd1, hnd1, rfl⟩ := List.mem_map.mp hnd
      have hch1 : nd1.Children ≠ [] :=
        Children_ne_nil_of_mem_iterNontips m1 nd1 hnd1
      have hchnd : (updateNontips
          (fun nd => nd.bootstrapSupport / (trees.length : ℚ)) nd1).Children ≠ [] := by
        intro hnil
        exact hch1 ((Children_updateNontips_nil _ nd1).mp hnil)
      have hm1ch : m1.Children ≠ [] := children_root_of_mem_iterNontips hnd1
      have hm0ch : m0.Children ≠ [] := by
        intro hnil
        exact hm1ch ((applyCompares_children trees m0 m1 happ).mpr hnil)
      have hmch : master.Children ≠ [] := by
        intro hnil
        apply hm0ch
        rw [hm0]
        exact (Children_setupWalk_eq_nil master 0).mpr hnil
      have hts_master : tipSet master = leafLabelSet master :=
        tipSet_eq_leafLabelSet hmch
      have hts_m0 : tipSet m0 = tipSet master := by
        rw [hm0]
        exact tipSet_setupWalk master 0
      have hnontip : ∀ t ∈ trees, t.Children ≠ [] := by
        intro t ht hnil
        have h1 : tipSet t = tipSet m0 := applyCompares_ok_mem trees m0 m1 happ t ht
        have h3 : tipSet m0 ≠ ∅ := by
          rw [hts_m0]
          exact tipSet_ne_empty_of_children hmch
        exact h3 (by rw [← h1, tipSet_empty_of_tip hnil])
      have hzero : ∀ nd ∈ iterNontips m0, tipSet nd = tipSet m0 →
          nd.bootstrapSupport = ((0 : ℕ) : ℚ) := by
        intro nd hnd0 _
        rw [hm0] at hnd0
        rw [bootstrapSupport_setupWalk master 0 nd hnd0]
        norm_num
      have hfull := applyCompares_full trees m0 m1 0 (tipSet m0) happ rfl
        hnontip hzero
      have hnd_ts : tipSet nd1 = tipSet m0 := by
        rw [← tipSet_updateNontips
          (fun nd => nd.bootstrapSupport / (trees.length : ℚ)) nd1,
          tipSet_eq_leafLabelSet hchnd, hndfull, ← hts_master, hts_m0]
      have hsupN : nd1.bootstrapSupport = ((trees.length : ℕ) : ℚ) := by
        have := hfull nd1 hnd1 hnd_ts
        simpa using this
      have hone : nd1.bootstrapSupport / ((trees.length : ℕ) : ℚ) = 1 := by
        rw [hsupN]
        exact div_self (by exact_mod_cast hN)
      constructor
      · rw [bootstrapSupport_updateNontips _ hch1]
        exact hone
      · rw [← hsup, Name_updateNontips, ← hone]
        exact List.mem_map.mpr ⟨nd1, hnd1, rfl⟩

/-- Witness for C4: one comparison tree identical in topology to the
master; the root (full clade) ends with support 1. -/
theorem C4_witness :
    ([compT1] : List PhyloNode) ≠ [] ∧
    (∀ t ∈ [compT1], leafLabelSet t = leafLabelSet masterABCD) ∧
    ∀ nd ∈ iterNontips incr1ABCD, leafLabelSet nd = leafLabelSet masterABCD →
      nd.bootstrapSupport = 1 ∧
        (nd.Name, (1 : ℚ)) ∈ [((some "node0" : Option String), (1 : ℚ)),
          (some "n1", 1), (some "n2", 1)] := by
  refine ⟨by simp, by decide, ?_⟩
  exact C4_full_clade_support_one masterABCD [compT1] incr1ABCD _
    (by simp) (by decide) (by with_unfolding_all rfl)

/-- C7 counterexample: for a master consisting of a single tip and zero
comparison trees, `bootstrap_support` returns an empty support mapping
instead of failing — there is no non-tip node, so the dividing loop never
runs. -/
theorem C7_cex : bootstrap_support (leaf "A") [] = .ok (leaf "A", []) := by
  with_unfolding_all rfl

/-- C7 amended: with zero comparison trees, a master tree that passes
setup and has at least one non-tip node makes the aggregation phase of
`bootstrap_support` fail with the division error (the `ZeroDivisionError`
realizing the spec's `EmptyInputError`) instead of producing a mapping. -/
theorem C7_amended_empty_input_error (master m0 : PhyloNode)
    (hset : setup_master_tree master = .ok m0)
    (hch : master.Children ≠ []) :
    bootstrap_support master [] = .error .zeroDivision := by
  have hm0 := (setup_master_tree_eq_ok hset).1
  have hch0 : m0.Children ≠ [] := by
    rw [hm0]
    intro hnil
    exact hch ((Children_setupWalk_eq_nil master 0).mp hnil)
  simp only [bootstrap_support, hset, applyCompares, List.length_nil]
  exact aggWalk_zero_error hch0

/-- Witness for the amended C7. -/
theorem C7_amended_witness :
    setup_master_tree masterABCD = .ok setupABCD ∧
    masterABCD.Children ≠ [] ∧
    bootstrap_support masterABCD [] = .error .zeroDivision := by
  have hset : setup_master_tree masterABCD = .ok setupABCD := by
    with_unfolding_all rfl
  refine ⟨hset, by simp [masterABCD, PhyloNode.Children], ?_⟩
  exact C7_amended_empty_input_error masterABCD setupABCD hset
    (by simp [masterABCD, PhyloNode.Children])

/-- C9: every non-tip accumulator is 0 right after initialization; each
successful `compare` call changes each non-tip accumulator by exactly 0 or
by exactly +1 (never a decrement); and after a successful comparison phase
over `N` trees every accumulator is a natural number between 0 and `N`. -/
theorem C9_accumulator_invariant :
    (∀ (t : PhyloNode) (i : ℕ), ∀ nd ∈ iterNontips (setupWalk t i).1,
        nd.bootstrapSupport = 0) ∧
    (∀ m s m2 : PhyloNode, compare m s = .ok m2 →
      List.Forall₂ (fun a b : PhyloNode =>
          b.bootstrapSupport = a.bootstrapSupport ∨
          b.bootstrapSupport = a.bootstrapSupport + 1)
        (iterNontips m) (iterNontips m2)) ∧
    (∀ (master : PhyloNode) (trees : List PhyloNode) (m0 m2 : PhyloNode),
      setup_master_tree master = .ok m0 → applyCompares m0 trees = .ok m2 →
      ∀ nd ∈ iterNontips m2, ∃ j : ℕ,
        nd.bootstrapSupport = (j : ℚ) ∧ j ≤ trees.length) := by
  refine ⟨fun t i => bootstrapSupport_setupWalk t i, ?_, ?_⟩
  · intro m s m2 hc
    obtain ⟨-, rfl⟩ := compare_eq_ok hc
    rw [iterNontips_updateNontips, List.forall₂_map_right_iff]
    rw [List.forall₂_same]
    intro nd hnd
    rw [bootstrapSupport_updateNontips _ (Children_ne_nil_of_mem_iterNontips m nd hnd)]
    by_cases hmem : tipSet nd ∈ subPartitions s
    · right
      rw [if_pos hmem]
    · left
      rw [if_neg hmem]
  · intro master trees m0 m2 hset happ
    have hm0 := (setup_master_tree_eq_ok hset).1
    have hzero : ∀ nd ∈ iterNontips m0,
        ∃ j : ℕ, nd.bootstrapSupport = (j : ℚ) ∧ j ≤ 0 := by
      intro nd hnd
      rw [hm0] at hnd
      exact ⟨0, by rw [bootstrapSupport_setupWalk master 0 nd hnd]; norm_num,
        le_refl 0⟩
    intro nd hnd
    obtain ⟨j, hj, hjk⟩ := applyCompares_bound trees m0 m2 0 happ hzero nd hnd
    exact ⟨j, hj, by omega⟩

/-- Witness for C9 at the concrete scenario. -/
theorem C9_witness :
    (∀ nd ∈ iterNontips (setupWalk masterABCD 0).1, nd.bootstrapSupport = 0) ∧
    List.Forall₂ (fun a b : PhyloNode =>
        b.bootstrapSupport = a.bootstrapSupport ∨
        b.bootstrapSupport = a.bootstrapSupport + 1)
      (iterNontips setupABCD) (iterNontips incr1ABCD) ∧
    ∀ nd ∈ iterNontips incr2ABCD, ∃ j : ℕ,
      nd.bootstrapSupport = (j : ℚ) ∧ j ≤ 2 := by
  have h := C9_accumulator_invariant
  refine ⟨h.1 masterABCD 0, ?_, ?_⟩
  · exact h.2.1 setupABCD compT1 incr1ABCD (by with_unfolding_all rfl)
  · have h3 := h.2.2 masterABCD [compT1, compT2] setupABCD incr2ABCD
      (by with_unfolding_all rfl) (by with_unfolding_all rfl)
    simpa using h3

/-- C10: when the comparison phase has processed trees `ts1` successfully
and the next tree raises a leaf-set mismatch, the master state at the
raise is exactly the fold of the successful comparisons — no increment is
rolled back — and `bootstrap_support` propagates the error. -/
theorem C10_no_rollback (master m0 mAcc t : PhyloNode)
    (ts1 rest : List PhyloNode) (e : TreeCompareError)
    (hset : setup_master_tree master = .ok m0)
    (h1 : applyCompares m0 ts1 = .ok mAcc)
    (h2 : compare mAcc t = .error e) :
    compareRun m0 (ts1 ++ t :: rest) = (mAcc, some e) ∧
    bootstrap_support master (ts1 ++ t :: rest) = .error e := by
  constructor
  · rw [compareRun_append_ok ts1 m0 mAcc _ h1]
    simp only [compareRun, h2]
  · simp only [bootstrap_support, hset,
      applyCompares_error_append ts1 m0 mAcc t rest e h1 h2]

/-- Witness for C10: one matching tree, then a mismatching one. -/
theorem C10_witness :
    compareRun setupABCD ([compT1] ++ compT3 :: []) =
      (incr1ABCD, some (.leafSetMismatch mismatchMsg)) ∧
    bootstrap_support masterABCD ([compT1] ++ compT3 :: []) =
      .error (.leafSetMismatch mismatchMsg) := by
  exact C10_no_rollback masterABCD setupABCD incr1ABCD compT3 [compT1] [] _
    (by with_unfolding_all rfl) (by with_unfolding_all rfl)
    (by with_unfolding_all rfl)

